import Mathlib

/-!
Verification of the token-budgeted chunking and hierarchical reduction engine of
the wine-review summarizer (src/wine_review_summarizer.py) and of the dataset
validator (src/data/validator.py), as a shallow embedding in Lean.

The external Tokenizer and Summarization Capability are modelled as abstract
structures of pure functions; the engine itself (chunking, length budgeting,
the two summarization passes of summarize_group, and the validator loops) is
translated directly from the source.
-/

set_option maxRecDepth 40000

/-! ## Chunker (chunk_text, lines 121-140) -/

/-- Recursion worker for chunkTokens, structurally recursive on a fuel bound so
that it evaluates inside the kernel.  One step of the worker is one iteration
of the loop `for i in range(0, len(tokens), max_tokens)` in chunk_text
(src/wine_review_summarizer.py lines 135-140): the loop index i is represented
by the remaining suffix `tokens.drop i`, the slice `tokens[i:i+max_tokens]` is
`take max_tokens` of that remainder, and the loop advances by dropping
`max_tokens` elements.  Each iteration consumes at least one token whenever
`0 < max_tokens`, so a fuel of `tokens.length` never runs out (lemma
chunkTokensAux_fuel below); Python raises ValueError when `max_tokens = 0`
(range with step 0), modelled as producing no chunks. -/
def chunkTokensAux {α : Type} (max_tokens : Nat) : Nat → List α → List (List α)
  | _, [] => []
  | 0, _ :: _ => []
  | fuel + 1, t :: ts =>
    if max_tokens = 0 then []
    else (t :: ts).take max_tokens :: chunkTokensAux max_tokens fuel ((t :: ts).drop max_tokens)

/-- Embeds the chunking loop of chunk_text (src lines 135-140): splits the
token list into consecutive windows of max_tokens tokens. -/
def chunkTokens {α : Type} (max_tokens : Nat) (tokens : List α) : List (List α) :=
  chunkTokensAux max_tokens tokens.length tokens

/-- Model of the external HuggingFace tokenizer (src lines 118, 133, 138, 164):
`encode` is `tokenizer.encode(text, truncation=False)` (with special tokens),
`encodeNoSpecial` is `tokenizer.encode(text, add_special_tokens=False)`, and
`decode` is `tokenizer.decode(tokens, skip_special_tokens=True)`. -/
structure Tokenizer where
  encode : String → List Nat
  encodeNoSpecial : String → List Nat
  decode : List Nat → String

/-- Model of the external summarization pipeline (src line 117):
`run text max_length min_length` is
`summarizer(text, max_length=.., min_length=.., do_sample=False, truncation=True)[0]["summary_text"]`,
deterministic under greedy decoding. -/
structure Summarizer where
  run : String → Nat → Nat → String

/-- Embeds chunk_text (src/wine_review_summarizer.py lines 121-140):
joins the texts with a single space, encodes, splits the token list into
windows of max_tokens, and decodes each window back to text.  The source has
`max_tokens: int = 900` as a default; callers below pass 900 explicitly. -/
def chunk_text (tok : Tokenizer) (texts : List String) (max_tokens : Nat) : List String :=
  let combined := String.intercalate " " texts
  let tokens := tok.encode combined
  (chunkTokens max_tokens tokens).map tok.decode

/-! ## Length Budgeter (lines 164-165 and 182-183) -/

/-- Embeds `dynamic_max = min(max_len, max(min_len + 5, int(input_len * 0.8)))`
(src lines 165 and 183).  Python `int(input_len * 0.8)` truncates toward zero,
i.e. takes the floor for a nonnegative argument, so it is modelled as the
integer floor `input_len * 4 / 5` (Nat division).  The IEEE double nearest to
0.8 is slightly above 4/5, and for every input_len below 2^50 the computed
product stays within the same unit interval as the exact value 4 * input_len / 5,
so the Python value and this model agree on all realistic token counts. -/
def dynamic_max (max_len min_len input_len : Nat) : Nat :=
  min max_len (max (min_len + 5) (input_len * 4 / 5))

/-- Modelled from the spec (section 4.2 and claim C1): the Length Budgeter
targetMax with `round(inputTokenLen * 0.8)` read as rounding to the nearest
integer.  4 * n / 5 has fractional part in {0, .2, .4, .6, .8}, never .5, so
every round-to-nearest convention gives `(n * 8 + 5) / 10` (Nat division).
This definition follows the words of the spec and exists only to be compared
with `dynamic_max`, which is translated from the source. -/
def budget_targetMax_spec (inputTokenLen callerMin callerMax : Nat) : Nat :=
  min callerMax (max (callerMin + 5) ((inputTokenLen * 8 + 5) / 10))

/-! ## Hierarchical Reducer (summarize_group, lines 143-202) -/

/-- Fixed intro string prepended to every capability call (src lines 156-158). -/
def intro : String := "Summarize the following reviews for a group of wines.\n"

/-- Record of one invocation of the external Summarization Capability:
which pass issued it, the full text handed over, and the length budget. -/
structure CapCall where
  pass : Nat
  text : String
  max_length : Nat
  min_length : Nat
deriving DecidableEq

/-- Embeds one iteration of the two structurally identical summarization loops
of summarize_group (src lines 163-174 and 181-192):
`input_len = len(tokenizer.encode(chunk, add_special_tokens=False))`,
`dynamic_max = min(max_len, max(min_len + 5, int(input_len * 0.8)))`, then one
call `summarizer(intro + chunk, max_length=dynamic_max, min_length=min_len, ...)`.
Returns the summary text together with a record of the capability call;
p tags which pass the chunk belongs to (1 = per-chunk, 2 = merge). -/
def summarizeChunk (tok : Tokenizer) (sm : Summarizer) (p max_len min_len : Nat)
    (chunk : String) : String × CapCall :=
  let input_len := (tok.encodeNoSpecial chunk).length
  let dmax := dynamic_max max_len min_len input_len
  (sm.run (intro ++ chunk) dmax min_len, ⟨p, intro ++ chunk, dmax, min_len⟩)

/-- Summaries produced by one pass over a chunk list (the `summaries.append(...)`
accumulation of src lines 161-174 and 179-192). -/
def passSummaries (tok : Tokenizer) (sm : Summarizer) (p max_len min_len : Nat)
    (chunks : List String) : List String :=
  chunks.map fun chunk => (summarizeChunk tok sm p max_len min_len chunk).1

/-- Capability calls issued by one pass over a chunk list, in chunk order. -/
def passCallLog (tok : Tokenizer) (sm : Summarizer) (p max_len min_len : Nat)
    (chunks : List String) : List CapCall :=
  chunks.map fun chunk => (summarizeChunk tok sm p max_len min_len chunk).2

/-- Embeds summarize_group (src/wine_review_summarizer.py lines 143-202).
The row argument is reduced to its review_texts list.  Pass 1 chunks the joined
reviews (chunk_text is called with its default max_tokens = 900) and summarizes
each chunk; if more than one summary results, the summaries are joined with a
space, re-chunked, summarized once more (the single hard-coded merge pass), and
the final summaries are joined; otherwise `summaries[0]` is returned, which in
Python raises IndexError when the pass produced no summary at all - modelled as
`none`.  The second component is the full log of capability calls made. -/
def summarize_group (tok : Tokenizer) (sm : Summarizer) (reviews : List String)
    (max_len min_len : Nat) : Option String × List CapCall :=
  let chunks := chunk_text tok reviews 900
  let summaries := passSummaries tok sm 1 max_len min_len chunks
  let calls1 := passCallLog tok sm 1 max_len min_len chunks
  if summaries.length > 1 then
    let combined := String.intercalate " " summaries
    let combined_chunks := chunk_text tok [combined] 900
    (some (String.intercalate " " (passSummaries tok sm 2 max_len min_len combined_chunks)),
      calls1 ++ passCallLog tok sm 2 max_len min_len combined_chunks)
  else
    match summaries with
    | [] => (none, calls1)
    | s :: _ => (some s, calls1)

/-- Embeds the per-group application of summarize_group in main
(src lines 242-243, `sample_groups.apply(summarize_group, axis=1)`): the groups
are processed in order and an exception raised for any one group propagates out
of `apply`, so no summary of any group is delivered - modelled by `none` for
the whole batch as soon as any group fails. -/
def summarize_all (tok : Tokenizer) (sm : Summarizer) (max_len min_len : Nat) :
    List (List String) → Option (List String)
  | [] => some []
  | g :: gs =>
    match (summarize_group tok sm g max_len min_len).1,
          summarize_all tok sm max_len min_len gs with
    | some s, some ss => some (s :: ss)
    | _, _ => none

/-! ## Concrete instances used for witnesses and counterexamples -/

/-- Concrete tokenizer for witnesses: one token (id 0) per character, and
decoding yields a string of that many letter a characters. -/
def lenTok : Tokenizer where
  encode := fun s => List.replicate s.length 0
  encodeNoSpecial := fun s => List.replicate s.length 0
  decode := fun ts => String.mk (List.replicate ts.length 'a')

/-- Concrete summarizer for witnesses: returns its input text unchanged. -/
def idSummarizer : Summarizer where
  run := fun text _ _ => text

/-- A 1000-character review: its 1000 tokens split into two chunks of 900 and
100 under the hard-coded window of 900. -/
def bigReview : String := String.mk (List.replicate 1000 'b')

/-- A 52-character review, chosen because floor and round of 52 * 0.8 = 41.6
differ. -/
def shortReview52 : String := String.mk (List.replicate 52 'b')

/-- Decoded form of the 52-token chunk of shortReview52 under lenTok. -/
def decoded52 : String := String.mk (List.replicate 52 'a')

/-! ## Dataset validator (src/data/validator.py) -/

/-- Success message of validate_wine_reviews (src/data/validator.py line 57). -/
def okMsg : String := "All records are valid and formatted correctly."

/-- Expected record keys in their fixed order (src/data/validator.py lines
21-31).  A line of the file is modelled as its list of characters. -/
def expected_keys : List (List Char) :=
  (["wine/name", "wine/wineId", "wine/variant", "wine/year", "review/points",
    "review/time", "review/userId", "review/userName", "review/text"]).map String.toList

/-- Models `line.split(":", 1)[0]` (src/data/validator.py line 54): the part of
the line before its first colon, or the whole line when it has none; used only
inside a failure message. -/
def keyPart (line : List Char) : List Char := line.takeWhile fun ch => ch != ':'

/-- Embeds the inner loop
`for j, (expected_key, line) in enumerate(zip(expected_keys, record_lines))`
of validate_wine_reviews (src/data/validator.py lines 50-55): walks the
expected keys and record lines in lockstep (zip stops at the shorter list) and
returns the first failure message, or none when every line starts with its
expected key followed by a colon.  recNo is `i // 10 + 1` and j the 0-based
line index within the record. -/
def checkKeys (recNo : Nat) : Nat → List (List Char) → List (List Char) → Option String
  | _, [], _ => none
  | _, _ :: _, [] => none
  | j, ek :: eks, line :: rest =>
    if (ek ++ [':']).isPrefixOf line then checkKeys recNo (j + 1) eks rest
    else some ("Record " ++ toString recNo ++ ", line " ++ toString (j + 1) ++
      " expected key " ++ String.mk ek ++ " but found " ++ String.mk (keyPart line))

/-- Recursion worker for checkBlocks, structurally recursive on a fuel bound so
that it evaluates inside the kernel.  One step is one iteration of the outer
loop `for i in range(0, len(lines), 10)` of validate_wine_reviews
(src/data/validator.py lines 43-55): the loop index i is represented by the
remaining suffix `lines.drop i`, so `lines[i:i+9]` is `take 9` of the
remainder, `lines[i+9]` is its element 9 (always in range when the 10-line
alignment guard held, modelled with getD), `i + 10 < len(lines)` is
`10 < remaining length`, and recNo carries `i // 10 + 1`.  Each iteration
consumes at least one line, so a fuel of `lines.length` never runs out (lemma
checkBlocksAux_fuel below). -/
def checkBlocksAux : Nat → Nat → List (List Char) → Bool × String
  | _, _, [] => (true, okMsg)
  | 0, _, _ :: _ => (true, okMsg)
  | fuel + 1, recNo, l :: rest =>
    let record_lines := (l :: rest).take 9
    let blank_line := (l :: rest).getD 9 []
    if 10 < (l :: rest).length ∧ blank_line ≠ [] then
      (false, "Missing blank line after record " ++ toString recNo ++ ".")
    else
      match checkKeys recNo 0 expected_keys record_lines with
      | some m => (false, m)
      | none => checkBlocksAux fuel (recNo + 1) ((l :: rest).drop 10)

/-- Embeds the block-checking loop of validate_wine_reviews (src lines 43-55). -/
def checkBlocks (recNo : Nat) (lines : List (List Char)) : Bool × String :=
  checkBlocksAux lines.length recNo lines

/-- Blank-padding step of validate_wine_reviews (src/data/validator.py lines
36-38): when the final record lacks its trailing blank line, that is when
(len(lines) + 1) % 10 == 0, one blank line is appended. -/
def padded (lines0 : List (List Char)) : List (List Char) :=
  if (lines0.length + 1) % 10 = 0 then lines0 ++ [[]] else lines0

/-- Embeds validate_wine_reviews (src/data/validator.py lines 11-57).  The file
is modelled as the list of its lines with trailing newlines already stripped
(`[line.rstrip("\n") for line in f]`); a line is its list of characters and a
blank line is the empty list.  Returns the validation flag and message. -/
def validate_wine_reviews (lines0 : List (List Char)) : Bool × String :=
  let lines := padded lines0
  if lines.length % 10 ≠ 0 then
    (false, "File length (" ++ toString lines.length ++ ") is not aligned with 10-line blocks.")
  else checkBlocks 1 lines

/-- Modelled from the spec (claim C9): one record is 9 lines of the form
`key: value`, the keys in the expected fixed order, the values arbitrary. -/
def mkRecord (vals : List (List Char)) : List (List Char) :=
  (expected_keys.zip vals).map fun kv => kv.1 ++ [':', ' '] ++ kv.2

/-- Modelled from the spec (claim C9): a file made of records, each followed by
one blank line. -/
def mkFile (records : List (List (List Char))) : List (List Char) :=
  (records.map fun vals => mkRecord vals ++ [[]]).flatten

/-! ## Lemmas about the Chunker -/

lemma chunkTokens_nil {α : Type} (m : Nat) : chunkTokens m ([] : List α) = [] := rfl

lemma chunkTokensAux_fuel {α : Type} (m : Nat) (hm : m ≠ 0) :
    ∀ (fuel : Nat) (l : List α), l.length ≤ fuel →
      chunkTokensAux m fuel l = chunkTokens m l := by
  intro fuel
  induction fuel using Nat.strong_induction_on with
  | _ fuel ih =>
    intro l hl
    cases l with
    | nil => cases fuel <;> rfl
    | cons t ts =>
      cases fuel with
      | zero => simp at hl
      | succ f =>
        show _ = chunkTokensAux m (ts.length + 1) (t :: ts)
        simp only [chunkTokensAux, if_neg hm]
        have hlen : ((t :: ts).drop m).length ≤ ts.length := by
          simp only [List.length_drop, List.length_cons]
          omega
        have hf : ts.length ≤ f := by simpa using hl
        have h1 : chunkTokensAux m f ((t :: ts).drop m) = chunkTokens m ((t :: ts).drop m) :=
          ih f (Nat.lt_succ_self f) _ (by omega)
        have h2 : chunkTokensAux m ts.length ((t :: ts).drop m) = chunkTokens m ((t :: ts).drop m) :=
          ih ts.length (by omega) _ hlen
        rw [h1, h2]

lemma chunkTokens_cons {α : Type} (m : Nat) (hm : m ≠ 0) (l : List α) (hl : l ≠ []) :
    chunkTokens m l = l.take m :: chunkTokens m (l.drop m) := by
  cases l with
  | nil => exact absurd rfl hl
  | cons t ts =>
    show chunkTokensAux m (ts.length + 1) (t :: ts) = _
    simp only [chunkTokensAux, if_neg hm]
    rw [chunkTokensAux_fuel m hm ts.length ((t :: ts).drop m)
      (by simp only [List.length_drop, List.length_cons]; omega)]

lemma chunkTokens_eq_nil_iff {α : Type} (m : Nat) (hm : m ≠ 0) (l : List α) :
    chunkTokens m l = [] ↔ l = [] := by
  constructor
  · intro h
    by_contra hne
    rw [chunkTokens_cons m hm l hne] at h
    exact List.cons_ne_nil _ _ h
  · intro h; subst h; exact chunkTokens_nil m

lemma chunkTokens_flatten_aux {α : Type} (m : Nat) (hm : m ≠ 0) :
    ∀ (n : Nat) (l : List α), l.length ≤ n → (chunkTokens m l).flatten = l := by
  intro n
  induction n with
  | zero =>
    intro l hl
    have : l = [] := List.eq_nil_of_length_eq_zero (Nat.le_zero.mp hl)
    subst this
    simp [chunkTokens_nil]
  | succ n ih =>
    intro l hl
    by_cases hne : l = []
    · subst hne; simp [chunkTokens_nil]
    · rw [chunkTokens_cons m hm l hne, List.flatten_cons]
      rw [ih (l.drop m) ?_, List.take_append_drop]
      have hpos : 0 < l.length := List.length_pos.mpr hne
      simp only [List.length_drop]
      omega

lemma chunkTokens_single {α : Type} (m : Nat) (hm : m ≠ 0) (l : List α)
    (hne : l ≠ []) (hle : l.length ≤ m) : chunkTokens m l = [l] := by
  rw [chunkTokens_cons m hm l hne, List.take_of_length_le hle,
    List.drop_eq_nil_of_le hle, chunkTokens_nil]

/-! ## Claim C6 - chunk coverage -/

/-- C6: for every token sequence and every maxTokens > 0, concatenating all
chunks produced by the Chunker, in order, reconstructs the original token
sequence exactly, token for token, with no gaps, overlaps, or reordering. -/
theorem chunk_coverage {α : Type} (m : Nat) (l : List α) (hm : 0 < m) :
    (chunkTokens m l).flatten = l :=
  chunkTokens_flatten_aux m (Nat.pos_iff_ne_zero.mp hm) l.length l le_rfl

theorem chunk_coverage_witness :
    0 < 2 ∧ (chunkTokens 2 ([1, 2, 3, 4, 5] : List Nat)).flatten = [1, 2, 3, 4, 5] :=
  ⟨by decide, chunk_coverage 2 [1, 2, 3, 4, 5] (by decide)⟩

/-! ## Claim C7 - chunk bounds -/

lemma chunkTokens_bounds_aux {α : Type} (m : Nat) (hm : m ≠ 0) :
    ∀ (n : Nat) (l : List α), l.length ≤ n →
      (∀ c ∈ chunkTokens m l, c.length ≤ m) ∧
      (∀ c ∈ (chunkTokens m l).dropLast, c.length = m) := by
  intro n
  induction n with
  | zero =>
    intro l hl
    have : l = [] := List.eq_nil_of_length_eq_zero (Nat.le_zero.mp hl)
    subst this
    simp [chunkTokens_nil]
  | succ n ih =>
    intro l hl
    by_cases hne : l = []
    · subst hne; simp [chunkTokens_nil]
    · rw [chunkTokens_cons m hm l hne]
      have hdrop : (l.drop m).length ≤ n := by
        have hpos : 0 < l.length := List.length_pos.mpr hne
        simp only [List.length_drop]
        omega
      obtain ⟨ih1, ih2⟩ := ih (l.drop m) hdrop
      constructor
      · intro c hc
        rcases List.mem_cons.mp hc with h | h
        · subst h
          simp [List.length_take]
        · exact ih1 c h
      · intro c hc
        rcases hrest : chunkTokens m (l.drop m) with _ | ⟨c', cs⟩
        · rw [hrest] at hc
          simp at hc
        · rw [hrest] at hc
          rw [List.dropLast_cons₂] at hc
          rcases List.mem_cons.mp hc with h | h
          · subst h
            have hm_lt : m < l.length := by
              have : l.drop m ≠ [] := by
                intro hcon
                rw [(chunkTokens_eq_nil_iff m hm (l.drop m)).mpr hcon] at hrest
                exact List.cons_ne_nil _ _ hrest.symm
              have := List.drop_eq_nil_iff.not.mp (by simpa using this)
              omega
            simp [List.length_take]
            omega
          · rw [← hrest] at h
            exact ih2 c h

/-- C7: for every token sequence and every maxTokens > 0, every chunk produced
by the Chunker has length at most maxTokens, every chunk except the last has
length exactly maxTokens, and only the last chunk may be shorter. -/
theorem chunk_bounds {α : Type} (m : Nat) (l : List α) (hm : 0 < m) :
    (∀ c ∈ chunkTokens m l, c.length ≤ m) ∧
    (∀ c ∈ (chunkTokens m l).dropLast, c.length = m) :=
  chunkTokens_bounds_aux m (Nat.pos_iff_ne_zero.mp hm) l.length l le_rfl

theorem chunk_bounds_witness :
    0 < 2 ∧
    ((∀ c ∈ chunkTokens 2 ([1, 2, 3, 4, 5] : List Nat), c.length ≤ 2) ∧
     (∀ c ∈ (chunkTokens 2 ([1, 2, 3, 4, 5] : List Nat)).dropLast, c.length = 2)) :=
  ⟨by decide, chunk_bounds 2 [1, 2, 3, 4, 5] (by decide)⟩

/-! ## Claim C5 - chunking an empty token sequence -/

/-- C5 counterexample: chunking an empty token sequence with maxTokens = 900
does not return one empty chunk; it returns zero chunks (Python
`range(0, 0, 900)` is empty, so the loop body never runs). -/
theorem chunk_empty_cex :
    (chunkTokens 900 ([] : List Nat)).length = 0 ∧
    (chunkTokens 900 ([] : List Nat)).length ≠ 1 := by
  constructor <;> simp [chunkTokens_nil]

/-- C5 amended: for maxTokens > 0, chunking an empty token sequence returns the
empty sequence of chunks (zero chunks), not a single empty chunk. -/
theorem chunk_empty_tokens {α : Type} (m : Nat) (_hm : 0 < m) :
    chunkTokens m ([] : List α) = [] :=
  chunkTokens_nil m

theorem chunk_empty_tokens_witness :
    0 < 900 ∧ chunkTokens 900 ([] : List Nat) = [] :=
  ⟨by decide, chunk_empty_tokens 900 (by decide)⟩

/-! ## Lemmas about the Reducer call log -/

lemma mem_passCallLog {tok : Tokenizer} {sm : Summarizer} {p max_len min_len : Nat}
    {chunks : List String} {c : CapCall}
    (h : c ∈ passCallLog tok sm p max_len min_len chunks) :
    ∃ chunk, chunk ∈ chunks ∧
      c = ⟨p, intro ++ chunk,
        dynamic_max max_len min_len (tok.encodeNoSpecial chunk).length, min_len⟩ := by
  simp only [passCallLog, summarizeChunk, List.mem_map] at h
  obtain ⟨ch, hch, heq⟩ := h
  exact ⟨ch, hch, heq.symm⟩

lemma summarize_group_snd (tok : Tokenizer) (sm : Summarizer) (reviews : List String)
    (max_len min_len : Nat) :
    ∃ chunks2 : List String,
      (summarize_group tok sm reviews max_len min_len).2 =
        passCallLog tok sm 1 max_len min_len (chunk_text tok reviews 900) ++
        passCallLog tok sm 2 max_len min_len chunks2 := by
  simp only [summarize_group]
  split
  · exact ⟨_, rfl⟩
  · refine ⟨[], ?_⟩
    split <;> simp [passCallLog]

lemma summarize_group_calls {tok : Tokenizer} {sm : Summarizer} {reviews : List String}
    {max_len min_len : Nat} {c : CapCall}
    (h : c ∈ (summarize_group tok sm reviews max_len min_len).2) :
    ∃ p chunk, (p = 1 ∨ p = 2) ∧
      c = ⟨p, intro ++ chunk,
        dynamic_max max_len min_len (tok.encodeNoSpecial chunk).length, min_len⟩ := by
  obtain ⟨chunks2, hsnd⟩ := summarize_group_snd tok sm reviews max_len min_len
  rw [hsnd] at h
  rcases List.mem_append.mp h with h1 | h1
  · obtain ⟨ch, _, rfl⟩ := mem_passCallLog h1
    exact ⟨1, ch, Or.inl rfl, rfl⟩
  · obtain ⟨ch, _, rfl⟩ := mem_passCallLog h1
    exact ⟨2, ch, Or.inr rfl, rfl⟩

lemma summarize_all_cons (tok : Tokenizer) (sm : Summarizer) (max_len min_len : Nat)
    (g : List String) (gs : List (List String)) :
    summarize_all tok sm max_len min_len (g :: gs) =
      match (summarize_group tok sm g max_len min_len).1,
            summarize_all tok sm max_len min_len gs with
      | some s, some ss => some (s :: ss)
      | _, _ => none := rfl

lemma summarize_group_of_single (tok : Tokenizer) (sm : Summarizer) (reviews : List String)
    (max_len min_len : Nat) (s : String) (h : chunk_text tok reviews 900 = [s]) :
    summarize_group tok sm reviews max_len min_len =
      (some (summarizeChunk tok sm 1 max_len min_len s).1,
        [(summarizeChunk tok sm 1 max_len min_len s).2]) := by
  simp [summarize_group, h, passSummaries, passCallLog]

/-! ## Claim C10 - every capability input is the intro plus the chunk -/

/-- C10: every invocation of the Summarization Capability made by the Reducer,
in pass 1 and in the merge pass alike, receives as input the fixed intro string
concatenated before the decoded chunk text, so the full capability input is
strictly longer than the chunk itself. -/
theorem capability_input_intro (tok : Tokenizer) (sm : Summarizer) (reviews : List String)
    (max_len min_len : Nat) :
    ∀ c ∈ (summarize_group tok sm reviews max_len min_len).2,
      ∃ chunk, c.text = intro ++ chunk ∧
        c.text.length = intro.length + chunk.length ∧
        chunk.length < c.text.length := by
  intro c hc
  obtain ⟨p, chunk, _, rfl⟩ := summarize_group_calls hc
  refine ⟨chunk, rfl, String.length_append intro chunk, ?_⟩
  have h0 : 0 < intro.length := by decide
  simp only [String.length_append]
  omega

theorem capability_input_intro_witness :
    (⟨1, intro ++ "aa", 35, 30⟩ : CapCall) ∈
      (summarize_group lenTok idSummarizer ["hi"] 80 30).2 ∧
    ∃ chunk, (⟨1, intro ++ "aa", 35, 30⟩ : CapCall).text = intro ++ chunk ∧
      (⟨1, intro ++ "aa", 35, 30⟩ : CapCall).text.length = intro.length + chunk.length ∧
      chunk.length < (⟨1, intro ++ "aa", 35, 30⟩ : CapCall).text.length :=
  ⟨by decide, capability_input_intro lenTok idSummarizer ["hi"] 80 30 _ (by decide)⟩

/-! ## Claim C1 - the Length Budgeter truncates instead of rounding -/

/-- C1 counterexample: at inputTokenLen = 52, callerMin = 30, callerMax = 80
the code computes targetMax = min(80, max(35, int(52 * 0.8))) = 41 (truncation
of 41.6), whereas the claim with round-to-nearest demands 42; the concrete run
through summarize_group issues exactly that call with max_length 41. -/
theorem budget_rounding_cex :
    (summarize_group lenTok idSummarizer [shortReview52] 80 30).2 =
      [⟨1, intro ++ decoded52, 41, 30⟩] ∧
    budget_targetMax_spec 52 30 80 = 42 ∧
    dynamic_max 80 30 52 = 41 ∧
    dynamic_max 80 30 52 ≠ budget_targetMax_spec 52 30 80 :=
  ⟨by rfl, by decide, by decide, by decide⟩

/-- C1 amended: for every chunk, the Length Budgeter computes
targetMax = min(callerMax, max(callerMin + 5, floor(inputTokenLen * 0.8)))
(truncation, not rounding to nearest) and passes targetMin = callerMin through
unchanged; this is exactly the budget of every capability call the Reducer
makes. -/
theorem budget_floor (tok : Tokenizer) (sm : Summarizer) (reviews : List String)
    (max_len min_len : Nat) :
    ∀ c ∈ (summarize_group tok sm reviews max_len min_len).2,
      c.min_length = min_len ∧
      ∃ chunk, c.text = intro ++ chunk ∧
        c.max_length =
          min max_len (max (min_len + 5) ((tok.encodeNoSpecial chunk).length * 4 / 5)) := by
  intro c hc
  obtain ⟨p, chunk, _, rfl⟩ := summarize_group_calls hc
  exact ⟨rfl, chunk, rfl, rfl⟩

theorem budget_floor_witness :
    (⟨1, intro ++ "aa", 35, 30⟩ : CapCall) ∈
      (summarize_group lenTok idSummarizer ["hi"] 80 30).2 ∧
    ((⟨1, intro ++ "aa", 35, 30⟩ : CapCall).min_length = 30 ∧
     ∃ chunk, (⟨1, intro ++ "aa", 35, 30⟩ : CapCall).text = intro ++ chunk ∧
       (⟨1, intro ++ "aa", 35, 30⟩ : CapCall).max_length =
         min 80 (max (30 + 5) ((lenTok.encodeNoSpecial chunk).length * 4 / 5))) :=
  ⟨by decide, budget_floor lenTok idSummarizer ["hi"] 80 30 _ (by decide)⟩

/-! ## Claim C2 - the Reducer hard-codes exactly one merge pass -/

/-- C2 counterexample: a 1000-token group needs two chunks in pass 1; the two
pass-1 summaries re-join to 1109 tokens, so the merge pass again produces two
chunks and two summaries - yet no third pass happens (no call is tagged with a
pass beyond 2): the code returns the join of the two merge-pass summaries
instead of looping until a single chunk remains. -/
theorem two_pass_hardcoded_cex :
    (((summarize_group lenTok idSummarizer [bigReview] 80 30).2.filter
        fun c => c.pass == 2).length = 2) ∧
    (((summarize_group lenTok idSummarizer [bigReview] 80 30).2.filter
        fun c => decide (2 < c.pass)).length = 0) :=
  ⟨by rfl, by rfl⟩

/-- C2 amended: the Reducer always terminates (it is a total function), but the
pass structure is hard-coded to at most 2: every capability call it ever makes
belongs to pass 1 or to the single merge pass 2, and when the merge pass yields
several summaries their join is returned rather than looping further. -/
theorem two_pass_upper_bound (tok : Tokenizer) (sm : Summarizer) (reviews : List String)
    (max_len min_len : Nat) :
    ∀ c ∈ (summarize_group tok sm reviews max_len min_len).2,
      c.pass = 1 ∨ c.pass = 2 := by
  intro c hc
  obtain ⟨p, chunk, hp, rfl⟩ := summarize_group_calls hc
  exact hp

theorem two_pass_upper_bound_witness :
    (⟨1, intro ++ "aa", 35, 30⟩ : CapCall) ∈
      (summarize_group lenTok idSummarizer ["hi"] 80 30).2 ∧
    ((⟨1, intro ++ "aa", 35, 30⟩ : CapCall).pass = 1 ∨
     (⟨1, intro ++ "aa", 35, 30⟩ : CapCall).pass = 2) :=
  ⟨by decide, two_pass_upper_bound lenTok idSummarizer ["hi"] 80 30 _ (by decide)⟩

/-! ## Claim C3 - empty group: no dedicated error, failure aborts the batch -/

/-- C3 counterexample: a batch holding one good group and one empty group
produces nothing at all - the empty group does not fail in isolation, it takes
the whole apply down with it - although the good group alone summarizes fine. -/
theorem empty_group_aborts_batch_cex :
    summarize_all lenTok idSummarizer 80 30 [["good"], []] = none ∧
    summarize_all lenTok idSummarizer 80 30 [["good"]] = some [intro ++ "aaaa"] :=
  ⟨by rfl, by rfl⟩

/-- C3 amended: no EmptyInputError exists; with an empty source-text list the
code just chunks the empty text.  When the tokenizer encodes the empty string
to no tokens, zero chunks and zero capability calls result and the Python
indexing `summaries[0]` raises (modelled as `none`); that unhandled failure
propagates through the per-group apply and aborts the entire batch, not only
the failing group. -/
theorem empty_group_no_error (tok : Tokenizer) (sm : Summarizer) (max_len min_len : Nat)
    (h : tok.encode "" = []) :
    summarize_group tok sm [] max_len min_len = (none, []) ∧
    ∀ groups, [] ∈ groups → summarize_all tok sm max_len min_len groups = none := by
  have h0 : String.intercalate " " ([] : List String) = "" := rfl
  have hsg : summarize_group tok sm [] max_len min_len = (none, []) := by
    simp only [summarize_group, chunk_text, h0, h, chunkTokens_nil, List.map_nil,
      passSummaries, passCallLog, List.length_nil]
    rfl
  refine ⟨hsg, ?_⟩
  intro groups hg
  induction groups with
  | nil => cases hg
  | cons g gs ih =>
    rcases List.mem_cons.mp hg with h1 | h1
    · rw [summarize_all_cons, ← h1, hsg]
    · have hgs : summarize_all tok sm max_len min_len gs = none := ih h1
      rw [summarize_all_cons, hgs]
      cases (summarize_group tok sm g max_len min_len).1 <;> rfl

theorem empty_group_no_error_witness :
    lenTok.encode "" = [] ∧
    (summarize_group lenTok idSummarizer [] 80 30 = (none, []) ∧
     ∀ groups, [] ∈ groups → summarize_all lenTok idSummarizer 80 30 groups = none) :=
  ⟨by decide, empty_group_no_error lenTok idSummarizer 80 30 (by decide)⟩

/-! ## Claim C4 - no budget validation, no ConfigurationError -/

/-- C4 counterexample: with the invalid budget callerMin = 50 > callerMax = 10
the engine raises nothing: it makes a capability call anyway (with
max_length = 10 below min_length = 50) and returns a summary normally. -/
theorem config_validation_cex :
    (summarize_group lenTok idSummarizer ["hi"] 10 50).2 =
      [⟨1, intro ++ "aa", 10, 50⟩] ∧
    (summarize_group lenTok idSummarizer ["hi"] 10 50).1 = some (intro ++ "aa") :=
  ⟨by rfl, by rfl⟩

/-- C4 amended: the engine performs no validation of its budget parameters.
With callerMin > callerMax it still invokes the Summarization Capability for
every chunk, handing each call the clamped max_length = callerMax together with
min_length = callerMin, an inverted budget with max_length < min_length; no
ConfigurationError is ever raised (none exists in the code), and the engine
always calls chunk_text with its hard-coded window of 900, so a non-positive
maxTokens cannot even reach the chunker from summarize_group. -/
theorem invalid_budget_passthrough (tok : Tokenizer) (sm : Summarizer) (reviews : List String)
    (max_len min_len : Nat) (h : max_len < min_len) :
    ∀ c ∈ (summarize_group tok sm reviews max_len min_len).2,
      c.max_length = max_len ∧ c.min_length = min_len ∧ c.max_length < c.min_length := by
  intro c hc
  obtain ⟨p, chunk, _, rfl⟩ := summarize_group_calls hc
  have hmax : dynamic_max max_len min_len (tok.encodeNoSpecial chunk).length = max_len := by
    have : max_len ≤ max (min_len + 5) ((tok.encodeNoSpecial chunk).length * 4 / 5) :=
      le_trans (by omega) (le_max_left _ _)
    simp [dynamic_max, Nat.min_eq_left this]
  refine ⟨hmax, rfl, ?_⟩
  simpa [hmax] using h

theorem invalid_budget_passthrough_witness :
    (10 : Nat) < 50 ∧
    (⟨1, intro ++ "aa", 10, 50⟩ : CapCall) ∈
      (summarize_group lenTok idSummarizer ["hi"] 10 50).2 ∧
    ((⟨1, intro ++ "aa", 10, 50⟩ : CapCall).max_length = 10 ∧
     (⟨1, intro ++ "aa", 10, 50⟩ : CapCall).min_length = 50 ∧
     (⟨1, intro ++ "aa", 10, 50⟩ : CapCall).max_length <
       (⟨1, intro ++ "aa", 10, 50⟩ : CapCall).min_length) :=
  ⟨by decide, by decide,
    invalid_budget_passthrough lenTok idSummarizer ["hi"] 10 50 (by decide) _ (by decide)⟩

/-! ## Claim C8 - single-chunk inputs take the direct path -/

/-- C8: when the combined group text tokenizes to at least one and at most 900
tokens (the hard-coded maxTokens window), the Reducer performs exactly one pass
with exactly one chunk and one capability call, and returns that chunk's direct
summarization result unchanged. -/
theorem single_chunk_path (tok : Tokenizer) (sm : Summarizer) (reviews : List String)
    (max_len min_len : Nat)
    (h0 : tok.encode (String.intercalate " " reviews) ≠ [])
    (h900 : (tok.encode (String.intercalate " " reviews)).length ≤ 900) :
    (summarize_group tok sm reviews max_len min_len).2.length = 1 ∧
    (∀ c ∈ (summarize_group tok sm reviews max_len min_len).2, c.pass = 1) ∧
    (summarize_group tok sm reviews max_len min_len).1 =
      some (summarizeChunk tok sm 1 max_len min_len
        (tok.decode (tok.encode (String.intercalate " " reviews)))).1 := by
  have hch : chunk_text tok reviews 900 =
      [tok.decode (tok.encode (String.intercalate " " reviews))] := by
    simp only [chunk_text]
    rw [chunkTokens_single 900 (by decide) _ h0 h900]
    rfl
  rw [summarize_group_of_single tok sm reviews max_len min_len _ hch]
  refine ⟨rfl, ?_, rfl⟩
  intro c hc
  rw [List.mem_singleton.mp hc]
  rfl

theorem single_chunk_path_witness :
    (summarize_group lenTok idSummarizer ["hi"] 80 30).2.length = 1 ∧
    (∀ c ∈ (summarize_group lenTok idSummarizer ["hi"] 80 30).2, c.pass = 1) ∧
    (summarize_group lenTok idSummarizer ["hi"] 80 30).1 =
      some (summarizeChunk lenTok idSummarizer 1 80 30
        (lenTok.decode (lenTok.encode (String.intercalate " " ["hi"])))).1 :=
  single_chunk_path lenTok idSummarizer ["hi"] 80 30 (by decide) (by decide)

/-! ## Lemmas about the validator -/

lemma checkBlocksAux_fuel :
    ∀ (fuel : Nat) (recNo : Nat) (l : List (List Char)), l.length ≤ fuel →
      checkBlocksAux fuel recNo l = checkBlocks recNo l := by
  intro fuel
  induction fuel using Nat.strong_induction_on with
  | _ fuel ih =>
    intro recNo l hl
    cases l with
    | nil => cases fuel <;> rfl
    | cons a rest =>
      cases fuel with
      | zero => simp at hl
      | succ f =>
        show _ = checkBlocksAux (rest.length + 1) recNo (a :: rest)
        by_cases hc : 10 < (a :: rest).length ∧ (a :: rest).getD 9 [] ≠ []
        · simp only [checkBlocksAux, if_pos hc]
        · simp only [checkBlocksAux, if_neg hc]
          cases hk : checkKeys recNo 0 expected_keys ((a :: rest).take 9) with
          | some m => rfl
          | none =>
            have hlen : ((a :: rest).drop 10).length ≤ rest.length := by
              simp only [List.length_drop, List.length_cons]; omega
            have hf : rest.length ≤ f := by simpa using hl
            rw [ih f (Nat.lt_succ_self f) (recNo + 1) _ (by omega),
              ih rest.length (by omega) (recNo + 1) _ hlen]

lemma checkBlocks_cons (recNo : Nat) (l : List (List Char)) (hl : l ≠ []) :
    checkBlocks recNo l =
      if 10 < l.length ∧ l.getD 9 [] ≠ [] then
        (false, "Missing blank line after record " ++ toString recNo ++ ".")
      else
        match checkKeys recNo 0 expected_keys (l.take 9) with
        | some m => (false, m)
        | none => checkBlocks (recNo + 1) (l.drop 10) := by
  cases l with
  | nil => exact absurd rfl hl
  | cons a rest =>
    show checkBlocksAux (rest.length + 1) recNo (a :: rest) = _
    by_cases hc : 10 < (a :: rest).length ∧ (a :: rest).getD 9 [] ≠ []
    · simp only [checkBlocksAux, if_pos hc]
    · simp only [checkBlocksAux, if_neg hc]
      cases hk : checkKeys recNo 0 expected_keys ((a :: rest).take 9) with
      | some m => rfl
      | none =>
        exact checkBlocksAux_fuel rest.length (recNo + 1) ((a :: rest).drop 10)
          (by simp only [List.length_drop, List.length_cons]; omega)

lemma checkKeys_zip_none (recNo : Nat) :
    ∀ (eks : List (List Char)) (j : Nat) (vals : List (List Char)),
      checkKeys recNo j eks ((eks.zip vals).map fun kv => kv.1 ++ [':', ' '] ++ kv.2) = none := by
  intro eks
  induction eks with
  | nil => intro j vals; rfl
  | cons ek eks ih =>
    intro j vals
    cases vals with
    | nil => rfl
    | cons v vs =>
      simp only [List.zip_cons_cons, List.map_cons]
      have hp : (ek ++ [':']).isPrefixOf (ek ++ [':', ' '] ++ v) = true := by
        rw [List.isPrefixOf_iff_prefix]
        exact ⟨' ' :: v, by simp⟩
      simp only [checkKeys, hp, if_true]
      exact ih (j + 1) vs

lemma expected_keys_length : expected_keys.length = 9 := rfl

lemma mkRecord_length (vals : List (List Char)) (hv : vals.length = 9) :
    (mkRecord vals).length = 9 := by
  simp [mkRecord, List.length_zip, expected_keys_length, hv]

lemma mkFile_cons (vals : List (List Char)) (rs : List (List (List Char))) :
    mkFile (vals :: rs) = (mkRecord vals ++ [[]]) ++ mkFile rs := by
  simp [mkFile]

lemma mkFile_length :
    ∀ (records : List (List (List Char))), (∀ r ∈ records, r.length = 9) →
      (mkFile records).length = 10 * records.length := by
  intro records
  induction records with
  | nil => intro _; rfl
  | cons vals rs ih =>
    intro h
    rw [mkFile_cons]
    have h9 : (mkRecord vals).length = 9 := mkRecord_length vals (h vals (by simp))
    have hrs : (mkFile rs).length = 10 * rs.length := ih fun r hr => h r (by simp [hr])
    simp [h9, hrs, List.length_append]
    omega

lemma checkBlocks_block (recNo : Nat) (b rest : List (List Char))
    (hb : b.length = 10) (hblank : b.getD 9 [] = [])
    (hkeys : checkKeys recNo 0 expected_keys (b.take 9) = none) :
    checkBlocks recNo (b ++ rest) = checkBlocks (recNo + 1) rest := by
  have hne : b ++ rest ≠ [] := by
    intro h
    have := congrArg List.length h
    simp [hb] at this
  rw [checkBlocks_cons recNo (b ++ rest) hne]
  have hblank2 : (b ++ rest).getD 9 [] = [] := by
    rw [List.getD_eq_getElem?_getD, List.getElem?_append_left (by omega),
      ← List.getD_eq_getElem?_getD, hblank]
  have htake : (b ++ rest).take 9 = b.take 9 := List.take_append_of_le_length (by omega)
  have hdrop : (b ++ rest).drop 10 = rest := List.drop_left' hb
  rw [if_neg (fun hcon => hcon.2 hblank2), htake, hkeys, hdrop]

lemma checkBlocks_mkFile :
    ∀ (records : List (List (List Char))) (recNo : Nat),
      (∀ r ∈ records, r.length = 9) →
      (checkBlocks recNo (mkFile records)).1 = true := by
  intro records
  induction records with
  | nil => intro recNo _; rfl
  | cons vals rs ih =>
    intro recNo h
    have h9 : (mkRecord vals).length = 9 := mkRecord_length vals (h vals (by simp))
    rw [mkFile_cons, checkBlocks_block recNo _ _ (by simp [h9]) ?_ ?_]
    · exact ih (recNo + 1) fun r hr => h r (by simp [hr])
    · rw [List.getD_eq_getElem?_getD, List.getElem?_append_right (by omega)]
      simp [h9]
    · rw [List.take_append_of_le_length (by omega), List.take_of_length_le (by omega)]
      exact checkKeys_zip_none recNo expected_keys 0 vals

lemma checkKeys_none_prefix :
    ∀ (eks : List (List Char)) (j0 recNo : Nat) (lines : List (List Char)),
      checkKeys recNo j0 eks lines = none →
      ∀ j, j < eks.length → j < lines.length →
        (eks.getD j [] ++ [':']).isPrefixOf (lines.getD j []) = true := by
  intro eks
  induction eks with
  | nil =>
    intro j0 recNo lines _ j hj _
    simp at hj
  | cons ek eks ih =>
    intro j0 recNo lines h j hj hjl
    cases lines with
    | nil => simp at hjl
    | cons line rest =>
      have hsplit : (ek ++ [':']).isPrefixOf line = true ∧
          checkKeys recNo (j0 + 1) eks rest = none := by
        by_cases hp : (ek ++ [':']).isPrefixOf line
        · refine ⟨hp, ?_⟩
          simpa only [checkKeys, if_pos hp] using h
        · exfalso
          simp only [checkKeys, if_neg hp] at h
          exact Option.some_ne_none _ h
      cases j with
      | zero => simpa using hsplit.1
      | succ j =>
        have hj' : j < eks.length := by simpa using hj
        have hjl' : j < rest.length := by simpa using hjl
        simpa using ih (j0 + 1) recNo rest hsplit.2 j hj' hjl'

lemma checkBlocks_true_dissect (recNo : Nat) (a : List Char) (rest : List (List Char))
    (h : (checkBlocks recNo (a :: rest)).1 = true) :
    ¬(10 < (a :: rest).length ∧ (a :: rest).getD 9 [] ≠ []) ∧
    checkKeys recNo 0 expected_keys ((a :: rest).take 9) = none ∧
    (checkBlocks (recNo + 1) ((a :: rest).drop 10)).1 = true := by
  rw [checkBlocks_cons recNo (a :: rest) (List.cons_ne_nil a rest)] at h
  by_cases hc : 10 < (a :: rest).length ∧ (a :: rest).getD 9 [] ≠ []
  · rw [if_pos hc] at h
    simp at h
  · rw [if_neg hc] at h
    refine ⟨hc, ?_⟩
    cases hk : checkKeys recNo 0 expected_keys ((a :: rest).take 9) with
    | some m =>
      rw [hk] at h
      simp at h
    | none =>
      rw [hk] at h
      exact ⟨rfl, h⟩

lemma checkBlocks_true_keys :
    ∀ (n : Nat) (l : List (List Char)) (recNo : Nat), l.length ≤ n →
      (checkBlocks recNo l).1 = true →
      ∀ k j, j < 9 → 10 * k + j < l.length →
        (expected_keys.getD j [] ++ [':']).isPrefixOf (l.getD (10 * k + j) []) = true := by
  intro n
  induction n with
  | zero =>
    intro l recNo hl _ k j _ hidx
    omega
  | succ n ih =>
    intro l recNo hl htrue k j hj hidx
    cases l with
    | nil => simp at hidx
    | cons a rest =>
      obtain ⟨_, hkeys, hrec⟩ := checkBlocks_true_dissect recNo a rest htrue
      cases k with
      | zero =>
        have hidx0 : j < rest.length + 1 := by simpa using hidx
        have hjt : j < ((a :: rest).take 9).length := by
          simp only [List.length_take, List.length_cons]
          omega
        have := checkKeys_none_prefix expected_keys 0 recNo ((a :: rest).take 9) hkeys j
          (by rw [expected_keys_length]; omega) hjt
        have hgd : ((a :: rest).take 9).getD j [] = (a :: rest).getD j [] := by
          rw [List.getD_eq_getElem?_getD, List.getElem?_take_of_lt hj,
            ← List.getD_eq_getElem?_getD]
        rw [hgd] at this
        simpa using this
      | succ k =>
        have harith : 10 * (k + 1) + j = 10 + (10 * k + j) := by omega
        have hgd : (a :: rest).getD (10 * (k + 1) + j) [] =
            ((a :: rest).drop 10).getD (10 * k + j) [] := by
          rw [List.getD_eq_getElem?_getD, List.getD_eq_getElem?_getD,
            List.getElem?_drop, harith]
        rw [hgd]
        have hlen : ((a :: rest).drop 10).length ≤ n := by
          simp only [List.length_drop, List.length_cons]
          simp only [List.length_cons] at hl
          omega
        have hidx' : 10 * k + j < ((a :: rest).drop 10).length := by
          simp only [List.length_drop, List.length_cons]
          simp only [List.length_cons] at hidx
          omega
        exact ih ((a :: rest).drop 10) (recNo + 1) hlen hrec k j hj hidx'

lemma checkBlocks_true_blanks :
    ∀ (n : Nat) (l : List (List Char)) (recNo : Nat), l.length ≤ n →
      (checkBlocks recNo l).1 = true →
      ∀ k, 10 * k + 10 < l.length → l.getD (10 * k + 9) [] = [] := by
  intro n
  induction n with
  | zero =>
    intro l recNo hl _ k hidx
    omega
  | succ n ih =>
    intro l recNo hl htrue k hidx
    cases l with
    | nil => simp at hidx
    | cons a rest =>
      obtain ⟨hcond, _, hrec⟩ := checkBlocks_true_dissect recNo a rest htrue
      cases k with
      | zero =>
        by_contra hne
        exact hcond ⟨by omega, by simpa using hne⟩
      | succ k =>
        have harith : 10 * (k + 1) + 9 = 10 + (10 * k + 9) := by omega
        have hgd : (a :: rest).getD (10 * (k + 1) + 9) [] =
            ((a :: rest).drop 10).getD (10 * k + 9) [] := by
          rw [List.getD_eq_getElem?_getD, List.getD_eq_getElem?_getD,
            List.getElem?_drop, harith]
        rw [hgd]
        have hlen : ((a :: rest).drop 10).length ≤ n := by
          simp only [List.length_drop, List.length_cons]
          simp only [List.length_cons] at hl
          omega
        have hidx' : 10 * k + 10 < ((a :: rest).drop 10).length := by
          simp only [List.length_drop, List.length_cons]
          simp only [List.length_cons] at hidx
          omega
        exact ih ((a :: rest).drop 10) (recNo + 1) hlen hrec k hidx'

lemma mkFile_ne_nil (vals : List (List Char)) (rs : List (List (List Char))) :
    mkFile (vals :: rs) ≠ [] := by
  rw [mkFile_cons]
  simp

lemma mkFile_dropLast :
    ∀ (records : List (List (List Char))), records ≠ [] →
      (mkFile records).dropLast ++ [[]] = mkFile records := by
  intro records
  induction records with
  | nil => intro h; exact absurd rfl h
  | cons vals rs ih =>
    intro _
    cases rs with
    | nil =>
      rw [mkFile_cons]
      show ((mkRecord vals ++ [[]]) ++ mkFile []).dropLast ++ [[]] = _
      have : mkFile ([] : List (List (List Char))) = [] := rfl
      rw [this, List.append_nil, List.dropLast_concat]
    | cons v2 rs2 =>
      rw [mkFile_cons, List.dropLast_append_of_ne_nil _ (mkFile_ne_nil v2 rs2),
        List.append_assoc, ih (List.cons_ne_nil v2 rs2)]

lemma validate_true (lines0 : List (List Char))
    (h : (validate_wine_reviews lines0).1 = true) :
    (checkBlocks 1 (padded lines0)).1 = true := by
  simp only [validate_wine_reviews] at h
  by_cases hmod : (padded lines0).length % 10 ≠ 0
  · rw [if_pos hmod] at h
    simp at h
  · rw [if_neg hmod] at h
    exact h

/-- C9: a file of records of exactly 9 key-colon-value lines in the fixed key
order, each record followed by one blank line, validates successfully - also
when the final trailing blank line is omitted - and validation fails whenever
the 10-line block alignment is violated; moreover a successful validation
guarantees that every record line starts with its expected key followed by a
colon and that every non-final block ends with a blank line. -/
theorem validator_format :
    (∀ records : List (List (List Char)), (∀ r ∈ records, r.length = 9) →
        (validate_wine_reviews (mkFile records)).1 = true) ∧
    (∀ records : List (List (List Char)), records ≠ [] →
        (∀ r ∈ records, r.length = 9) →
        (validate_wine_reviews ((mkFile records).dropLast)).1 = true) ∧
    (∀ lines0 : List (List Char), lines0.length % 10 ≠ 0 →
        (lines0.length + 1) % 10 ≠ 0 →
        (validate_wine_reviews lines0).1 = false) ∧
    (∀ lines0 : List (List Char), (validate_wine_reviews lines0).1 = true →
        ∀ k j, j < 9 → 10 * k + j < (padded lines0).length →
          (expected_keys.getD j [] ++ [':']).isPrefixOf
            ((padded lines0).getD (10 * k + j) []) = true) ∧
    (∀ lines0 : List (List Char), (validate_wine_reviews lines0).1 = true →
        ∀ k, 10 * k + 10 < (padded lines0).length →
          (padded lines0).getD (10 * k + 9) [] = []) := by
  refine ⟨?_, ?_, ?_, ?_, ?_⟩
  · intro records hlen
    have hlength := mkFile_length records hlen
    have hpad : padded (mkFile records) = mkFile records := by
      simp only [padded]
      rw [if_neg (by rw [hlength]; omega)]
    simp only [validate_wine_reviews, hpad]
    rw [if_neg (by rw [hlength]; omega)]
    exact checkBlocks_mkFile records 1 hlen
  · intro records hne hlen
    have hlength := mkFile_length records hlen
    have hpos : 0 < records.length := List.length_pos.mpr hne
    have hdl : (mkFile records).dropLast.length = 10 * records.length - 1 := by
      rw [List.length_dropLast, hlength]
    have hpad : padded ((mkFile records).dropLast) = mkFile records := by
      simp only [padded]
      rw [if_pos (by rw [hdl]; omega), mkFile_dropLast records hne]
    simp only [validate_wine_reviews, hpad]
    rw [if_neg (by rw [hlength]; omega)]
    exact checkBlocks_mkFile records 1 hlen
  · intro lines0 h1 h2
    have hpad : padded lines0 = lines0 := by
      simp only [padded]
      rw [if_neg h2]
    simp only [validate_wine_reviews, hpad]
    rw [if_pos h1]
  · intro lines0 htrue k j hj hidx
    exact checkBlocks_true_keys (padded lines0).length (padded lines0) 1 le_rfl
      (validate_true lines0 htrue) k j hj hidx
  · intro lines0 htrue k hidx
    exact checkBlocks_true_blanks (padded lines0).length (padded lines0) 1 le_rfl
      (validate_true lines0 htrue) k hidx

theorem validator_format_witness :
    (validate_wine_reviews (mkFile [List.replicate 9 ['v']])).1 = true :=
  validator_format.1 [List.replicate 9 ['v']] (by decide)
